import Mathlib

/-
Formal model of src/memory/tools/bench-allocator.c, a deterministic
allocator micro-benchmark (xorshift64 generator, three allocation
phases, and a reporting driver).

Modelling conventions.  C unsigned long long arithmetic is modelled on
Nat with explicit reduction modulo 2 ^ 64 wherever C overflow can occur.
The global rng_state is threaded explicitly: each generator call takes
the current state and returns the pair (returned value, new state).
The allocator is modelled by an oracle (ok : Nat -> Bool) indexed by a
running allocation counter: ok n tells whether the n-th malloc call of
the run succeeds.  A successful allocation yields a fresh handle (the
counter value); a Cell records a buffer's handle together with its byte
contents, so that memset fills are visible in the model.  The set of
currently live handles is tracked in an AllocSt, with malloc inserting
and free erasing handles.
-/

namespace Bench

/-- Modulus of C unsigned long long (64-bit) arithmetic. -/
def U64 : Nat := 2 ^ 64

/-- Initial value of the global rng_state, line 23 of the source. -/
def rngSeed : Nat := 0xdeadbeefcafe1234

/-- Model of xorshift64, lines 25 to 32 of the source: the function shifts
and xors the state three times, stores the result back into rng_state and
returns it.  The result is the pair (returned value, new stored state). -/
def next (s : Nat) : Nat × Nat :=
  let x := s
  let x := x ^^^ ((x <<< 13) % U64)
  let x := x ^^^ (x >>> 7)
  let x := x ^^^ ((x <<< 17) % U64)
  (x, x)

/-- Value returned by one xorshift64 call from state s. -/
def xorshift64 (s : Nat) : Nat := (next s).1

/-- Model of rand_range, lines 35 to 37 of the source: draw one value and
reduce it into the interval from lo to hi (hi excluded).  size_t values in
the source stay far below 2 ^ 64 here, so Nat addition is exact. -/
def rand_range (lo hi s : Nat) : Nat × Nat :=
  let r := next s
  (lo + r.1 % (hi - lo), r.2)

/-- First n values produced by successive generator calls from state s. -/
def draws (s : Nat) : Nat → List Nat
  | 0 => []
  | n + 1 => (next s).1 :: draws ((next s).2) n

/-- Single xor-with-left-shifted-self step, truncated to 64 bits. -/
def stepL (k x : Nat) : Nat := x ^^^ ((x <<< k) % U64)

/-- Single xor-with-right-shifted-self step (no truncation needed). -/
def stepR (k x : Nat) : Nat := x ^^^ (x >>> k)

/-- Accumulate the leading decimal digits of a character list onto acc,
stopping at the first non-digit, as the digit loop of C atoi does. -/
def digitsVal : List Char → Nat → Nat
  | [], acc => acc
  | c :: cs, acc =>
    if c.isDigit then digitsVal cs (acc * 10 + (c.toNat - 48)) else acc

/-- True for the characters C isspace accepts in the C locale. -/
def isSpaceC (c : Char) : Bool :=
  c = ' ' || c = '\t' || c = '\n' || c = '\r' || c.toNat = 11 || c.toNat = 12

/-- Core of C atoi on a character list: skip leading spaces, accept one
optional sign, then read leading digits; no digits yields zero.  Overflow
of the C int result is undefined behaviour in C and is not modelled. -/
def atoiCore : List Char → Int
  | [] => 0
  | c :: cs =>
    if isSpaceC c then atoiCore cs
    else if c = '-' then -(digitsVal cs 0 : Int)
    else if c = '+' then (digitsVal cs 0 : Int)
    else (digitsVal (c :: cs) 0 : Int)

/-- Model of the atoi call on argv[1] (line 134 of the source). -/
def atoi (s : List Char) : Int := atoiCore s

/-- Rounds value before clamping: 500000 when no argument is given,
otherwise the atoi of the argument (lines 132 to 134). -/
def parseArg (arg : Option (List Char)) : Int :=
  match arg with
  | none => 500000
  | some s => atoi s

/-- Clamp of lines 135 to 136: any rounds value below 1000 becomes 1000.
The result is a Nat since the clamped value is positive. -/
def clampRounds (r : Int) : Nat :=
  if r < 1000 then 1000 else r.toNat

/-- Rounds count the program actually uses for a given command line. -/
def roundsOf (arg : Option (List Char)) : Nat :=
  clampRounds (parseArg arg)

/-- Accumulation count of lines 138 to 140: rounds / 50, floored at 100. -/
def accum_count (rounds : Nat) : Nat :=
  if rounds / 50 < 100 then 100 else rounds / 50

/-- Total operation count of line 197.  The C code computes it in double,
which is exact here since every intermediate value is far below 2 ^ 53. -/
def totalOps (rounds accum : Nat) : Nat := rounds + accum * 3

/-- Operation count reported for a requested (pre-clamp) rounds value. -/
def driverOps (r : Int) : Nat :=
  totalOps (clampRounds r) (accum_count (clampRounds r))

/-- Model of the fragmentation-ratio report, lines 204 to 211: the ratio
post-fragment over post-accumulate is computed and printed only when both
resident-memory readings are positive; the double division is modelled
exactly on the rationals. -/
def fragReport (rss_after_accum rss_after_frag : Int) : Option ℚ :=
  if 0 < rss_after_accum ∧ 0 < rss_after_frag then
    some ((rss_after_frag : ℚ) / (rss_after_accum : ℚ))
  else none

/-- Allocator state: a running counter handing out fresh handles to each
malloc call, and the finite set of currently live handles. -/
structure AllocSt where
  ctr : Nat
  live : Finset Nat

/-- Well-formedness of an allocator state: every live handle was issued
by the counter, so all handles issued later are distinct from it. -/
def AllocSt.WF (a : AllocSt) : Prop := ∀ h ∈ a.live, h < a.ctr

/-- Model of one malloc call: the oracle ok, indexed by the allocation
counter, decides success.  Success returns a fresh handle and marks it
live; failure returns the null handle. -/
def amalloc (ok : Nat → Bool) (a : AllocSt) : Option Nat × AllocSt :=
  if ok a.ctr then (some a.ctr, ⟨a.ctr + 1, insert a.ctr a.live⟩)
  else (none, ⟨a.ctr + 1, a.live⟩)

/-- Model of free on a handle: the handle stops being live. -/
def afree (h : Nat) (a : AllocSt) : AllocSt := ⟨a.ctr, a.live.erase h⟩

/-- A buffer: its handle plus its byte contents (memset writes show up
as the data field, one Nat per byte). -/
structure Cell where
  h : Nat
  data : List Nat

/-- Loop of phase_accumulate, lines 96 to 101: for each of n iterations
draw a size in [4096, 65536), attempt a malloc, and append the resulting
entry (null on failure, a buffer filled with 0xAB on success). -/
def accumLoop (ok : Nat → Bool) :
    Nat → List (Option Cell) → Nat → AllocSt → List (Option Cell) × Nat × AllocSt
  | 0, ps, s, a => (ps, s, a)
  | n + 1, ps, s, a =>
    accumLoop ok n
      (ps ++ [(amalloc ok a).1.map fun h =>
        Cell.mk h (List.replicate (rand_range 4096 65536 s).1 0xAB)])
      (rand_range 4096 65536 s).2
      (amalloc ok a).2

/-- Model of phase_accumulate, lines 92 to 102.  The handle list itself is
allocated first (line 93) with no null check; if that malloc fails and
count is positive, the loop body stores through a null pointer, which is
modelled as the crashed result none.  The second component models the
out_count store of line 94, which the C code performs unconditionally. -/
def phase_accumulate (ok : Nat → Bool) (count : Nat) (s : Nat) (a : AllocSt) :
    Option (List (Option Cell)) × Nat × Nat × AllocSt :=
  let m := amalloc ok a
  match m.1 with
  | some _ =>
    let r := accumLoop ok count [] s m.2
    (some r.1, count, r.2.1, r.2.2)
  | none =>
    if count = 0 then (some [], count, s, m.2) else (none, count, s, m.2)

/-- Odd indices below count, in increasing order: the iteration sequence
of both loops of phase_fragment (for i = 1; i < count; i += 2). -/
def oddIdx (count : Nat) : List Nat :=
  (List.range count).filter fun i => decide (i % 2 = 1)

/-- First loop of phase_fragment, lines 111 to 114: free each listed
entry (free of a null entry is a no-op) and null the slot. -/
def fragFree : List Nat → List (Option Cell) → AllocSt →
    List (Option Cell) × AllocSt
  | [], ptrs, a => (ptrs, a)
  | j :: l, ptrs, a =>
    match ptrs.getD j none with
    | some c => fragFree l (ptrs.set j none) (afree c.h a)
    | none => fragFree l (ptrs.set j none) a

/-- Second loop of phase_fragment, lines 117 to 122: for each listed
index draw a size in [128, 8192), attempt a malloc into the slot, and on
success fill the buffer with the sentinel 0xCD. -/
def fragAlloc (ok : Nat → Bool) : List Nat → List (Option Cell) → Nat → AllocSt →
    List (Option Cell) × Nat × AllocSt
  | [], ptrs, s, a => (ptrs, s, a)
  | j :: l, ptrs, s, a =>
    fragAlloc ok l
      (ptrs.set j ((amalloc ok a).1.map fun h =>
        Cell.mk h (List.replicate (rand_range 128 8192 s).1 0xCD)))
      (rand_range 128 8192 s).2
      (amalloc ok a).2

/-- Model of phase_fragment, lines 109 to 123: free every odd-indexed
entry, then reallocate every odd-indexed slot with a smaller buffer. -/
def phase_fragment (ok : Nat → Bool) (ptrs : List (Option Cell))
    (count : Nat) (s : Nat) (a : AllocSt) :
    List (Option Cell) × Nat × AllocSt :=
  let f := fragFree (oddIdx count) ptrs a
  fragAlloc ok (oddIdx count) f.1 s f.2

/-- Slot capacity of the churn pool, line 64 of the source. -/
def POOL : Nat := 2048

/-- State of the churn phase: the slot array (each slot empty or holding
a buffer), the generator state, and the allocator state. -/
structure ChurnSt where
  pool : Fin POOL → Option Cell
  rng : Nat
  alloc : AllocSt

/-- Slot index drawn at the top of a churn iteration, line 69: one
generator call reduced modulo the pool capacity. -/
def churnIdx (st : ChurnSt) : Fin POOL :=
  ⟨(next st.rng).1 % POOL, Nat.mod_lt _ (by decide)⟩

/-- Free-if-occupied step of a churn iteration, lines 71 to 74: an
occupied slot is freed and cleared before anything is written into it. -/
def churnFree (st : ChurnSt) (idx : Fin POOL) :
    (Fin POOL → Option Cell) × AllocSt :=
  match st.pool idx with
  | some c => (Function.update st.pool idx none, afree c.h st.alloc)
  | none => (st.pool, st.alloc)

/-- One iteration of the churn loop, lines 68 to 80: draw a slot, free it
if occupied, draw a size in [64, 4096), attempt a malloc into the slot
(a failure leaves the slot empty), and on success fill the buffer with
the byte i mod 256. -/
def churnStep (ok : Nat → Bool) (i : Nat) (st : ChurnSt) : ChurnSt :=
  let idx := churnIdx st
  let fr := churnFree st idx
  let r := rand_range 64 4096 (next st.rng).1
  let m := amalloc ok fr.2
  ⟨Function.update fr.1 idx
    (m.1.map fun h => Cell.mk h (List.replicate r.1 (i % 256))),
   r.2, m.2⟩

/-- Churn state after the first n iterations, starting from an
all-empty pool (line 66). -/
def churnIter (ok : Nat → Bool) (s : Nat) (a : AllocSt) : Nat → ChurnSt
  | 0 => ⟨fun _ => none, s, a⟩
  | n + 1 => churnStep ok n (churnIter ok s a n)

/-- Free the buffer held in one slot, if any. -/
def freeSlot (p : Fin POOL → Option Cell) (a : AllocSt) (j : Fin POOL) : AllocSt :=
  match p j with
  | some c => afree c.h a
  | none => a

/-- Cleanup loop of phase_churn, lines 83 to 84: free every slot. -/
def churnCleanup (st : ChurnSt) : AllocSt :=
  (List.finRange POOL).foldl (freeSlot st.pool) st.alloc

/-- Model of phase_churn, lines 62 to 85: run rounds iterations, then
free every still-occupied slot; returns the final generator state and
allocator state. -/
def phase_churn (ok : Nat → Bool) (rounds s : Nat) (a : AllocSt) :
    Nat × AllocSt :=
  ((churnIter ok s a rounds).rng, churnCleanup (churnIter ok s a rounds))

/-- Set of handles held in the pool slots. -/
def img (p : Fin POOL → Option Cell) : Finset Nat :=
  Finset.univ.biUnion fun j =>
    match p j with
    | some c => {c.h}
    | none => ∅

/-- Invariant of the churn loop relative to the allocator state a0 the
phase started from: the live handles are exactly the initial ones plus
the pool contents, pool handles were issued during the phase, distinct
slots hold distinct handles, and the counter only grew. -/
structure ChurnInv (a0 : AllocSt) (st : ChurnSt) : Prop where
  liveEq : st.alloc.live = a0.live ∪ img st.pool
  bounds : ∀ h ∈ img st.pool, a0.ctr ≤ h ∧ h < st.alloc.ctr
  inj : ∀ (j k : Fin POOL) (c c2 : Cell),
    st.pool j = some c → st.pool k = some c2 → c.h = c2.h → j = k
  ctrLe : a0.ctr ≤ st.alloc.ctr

lemma mem_img {p : Fin POOL → Option Cell} {t : Nat} :
    t ∈ img p ↔ ∃ j, ∃ c, p j = some c ∧ c.h = t := by
  rw [img, Finset.mem_biUnion]
  constructor
  · rintro ⟨j, _, hj⟩
    cases hp : p j with
    | some c =>
      rw [hp] at hj
      exact ⟨j, c, hp, (Finset.mem_singleton.1 hj).symm⟩
    | none =>
      rw [hp] at hj
      exact absurd hj (Finset.not_mem_empty t)
  · rintro ⟨j, c, hp, hc⟩
    refine ⟨j, Finset.mem_univ j, ?_⟩
    rw [hp]
    exact Finset.mem_singleton.2 hc.symm

attribute [irreducible] img

lemma xorshift64_eq_steps (s : Nat) :
    xorshift64 s = stepL 17 (stepR 7 (stepL 13 s)) := rfl

lemma next_eq (s : Nat) : next s = (xorshift64 s, xorshift64 s) := rfl

lemma draws_eq :
    ∀ (n : Nat) (s : Nat),
      draws s n = (List.range n).map fun i => xorshift64^[i + 1] s := by
  intro n
  induction n with
  | zero => intro s; simp [draws]
  | succ n ih =>
    intro s
    rw [draws, ih, List.range_succ_eq_map, List.map_cons, List.map_map]
    refine congrArg₂ List.cons ?_ ?_
    · simp [next_eq]
    · refine List.map_congr_left fun i _ => ?_
      simp [Function.comp, next_eq, Function.iterate_succ_apply]

/-- C3: rand_range draws exactly one generator value, reduces it modulo
(hi - lo), adds lo, and for lo < hi the result lies in [lo, hi); the state
advances by exactly one generator step. -/
theorem c3_rand_range (lo hi s : Nat) (h : lo < hi) :
    (rand_range lo hi s).1 = lo + xorshift64 s % (hi - lo)
    ∧ lo ≤ (rand_range lo hi s).1
    ∧ (rand_range lo hi s).1 < hi
    ∧ (rand_range lo hi s).2 = xorshift64 s := by
  refine ⟨rfl, Nat.le_add_right _ _, ?_, rfl⟩
  have h1 : xorshift64 s % (hi - lo) < hi - lo := Nat.mod_lt _ (by omega)
  show lo + xorshift64 s % (hi - lo) < hi
  omega

/-- Witness for c3_rand_range at lo = 2, hi = 5, s = 0. -/
theorem c3_rand_range_witness :
    (rand_range 2 5 0).1 = 2 + xorshift64 0 % (5 - 2)
    ∧ 2 ≤ (rand_range 2 5 0).1
    ∧ (rand_range 2 5 0).1 < 5
    ∧ (rand_range 2 5 0).2 = xorshift64 0 :=
  c3_rand_range 2 5 0 (by decide)

/-- C9: a generator call computes exactly the fixed transformation
(xor by shift left 13, xor by shift right 7, xor by shift left 17, all
modulo 2 ^ 64), returns precisely the newly stored state, and the draw
sequence from any fixed seed is the deterministic orbit of that
transformation with no other entropy source. -/
theorem c9_next_fixed_transformation :
    (∀ s, next s = (stepL 17 (stepR 7 (stepL 13 s)),
                    stepL 17 (stepR 7 (stepL 13 s))))
    ∧ (∀ s, (next s).1 = (next s).2)
    ∧ (∀ s n, draws s n = (List.range n).map fun i => xorshift64^[i + 1] s) :=
  ⟨fun _ => rfl, fun _ => rfl, fun s n => draws_eq n s⟩

lemma bool_xor_cancel_right {a b c : Bool} (h : a.xor c = b.xor c) : a = b := by
  revert h; cases a <;> cases b <;> cases c <;> decide

lemma testBit_false_of_ge {x i : Nat} (hx : x < U64) (hi : 64 ≤ i) :
    x.testBit i = false := by
  refine Nat.testBit_lt_two_pow (lt_of_lt_of_le hx ?_)
  exact Nat.pow_le_pow_right (by omega) hi

lemma stepL_testBit {k x : Nat} (i : Nat) (hi : i < 64) :
    (stepL k x).testBit i
      = ((x.testBit i).xor (decide (k ≤ i) && x.testBit (i - k))) := by
  simp only [stepL, U64, Nat.testBit_xor, Nat.testBit_mod_two_pow,
    Nat.testBit_shiftLeft, ge_iff_le]
  simp [hi, Bool.xor]

lemma stepR_testBit {k x : Nat} (i : Nat) :
    (stepR k x).testBit i = ((x.testBit i).xor (x.testBit (k + i))) := by
  simp [stepR, Bool.xor]

lemma stepL_lt {k x : Nat} (hx : x < U64) : stepL k x < U64 :=
  Nat.xor_lt_two_pow hx (Nat.mod_lt _ (by norm_num [U64]))

lemma stepR_lt {k x : Nat} (hx : x < U64) : stepR k x < U64 := by
  refine Nat.xor_lt_two_pow hx (lt_of_le_of_lt ?_ hx)
  rw [Nat.shiftRight_eq_div_pow]
  exact Nat.div_le_self _ _

lemma stepL_inj {k : Nat} (hk : 0 < k) {x y : Nat} (hx : x < U64) (hy : y < U64)
    (h : stepL k x = stepL k y) : x = y := by
  apply Nat.eq_of_testBit_eq
  intro i
  induction i using Nat.strongRecOn with
  | ind i ih =>
    rcases lt_or_ge i 64 with hi | hi
    · have hb : (stepL k x).testBit i = (stepL k y).testBit i := by rw [h]
      rw [stepL_testBit i hi, stepL_testBit i hi] at hb
      by_cases hki : k ≤ i
      · have hrec : x.testBit (i - k) = y.testBit (i - k) := ih (i - k) (by omega)
        rw [hrec] at hb
        exact bool_xor_cancel_right hb
      · simp [hki] at hb
        exact hb
    · rw [testBit_false_of_ge hx hi, testBit_false_of_ge hy hi]

lemma stepR_inj {k : Nat} (hk : 0 < k) {x y : Nat} (hx : x < U64) (hy : y < U64)
    (h : stepR k x = stepR k y) : x = y := by
  apply Nat.eq_of_testBit_eq
  have aux : ∀ (d i : Nat), 64 ≤ i + d → x.testBit i = y.testBit i := by
    intro d
    induction d with
    | zero =>
      intro i hi
      rw [testBit_false_of_ge hx (by omega), testBit_false_of_ge hy (by omega)]
    | succ d ihd =>
      intro i hi
      rcases lt_or_ge i 64 with h64 | h64
      · have hb : (stepR k x).testBit i = (stepR k y).testBit i := by rw [h]
        rw [stepR_testBit i, stepR_testBit i] at hb
        have hrec : x.testBit (k + i) = y.testBit (k + i) := ihd (k + i) (by omega)
        rw [hrec] at hb
        exact bool_xor_cancel_right hb
      · rw [testBit_false_of_ge hx h64, testBit_false_of_ge hy h64]
  intro i
  exact aux 64 i (by omega)

lemma xorshift64_lt {s : Nat} (hs : s < U64) : xorshift64 s < U64 := by
  rw [xorshift64_eq_steps]
  exact stepL_lt (stepR_lt (stepL_lt hs))

lemma xorshift64_inj {x y : Nat} (hx : x < U64) (hy : y < U64)
    (h : xorshift64 x = xorshift64 y) : x = y := by
  rw [xorshift64_eq_steps, xorshift64_eq_steps] at h
  have h1 := stepL_inj (k := 17) (by omega)
    (stepR_lt (stepL_lt hx)) (stepR_lt (stepL_lt hy)) h
  have h2 := stepR_inj (k := 7) (by omega) (stepL_lt hx) (stepL_lt hy) h1
  exact stepL_inj (k := 13) (by omega) hx hy h2

lemma xorshift64_zero : xorshift64 0 = 0 := by decide

lemma iterate_seed_ne_zero (n : Nat) :
    xorshift64^[n] rngSeed ≠ 0 ∧ xorshift64^[n] rngSeed < U64 := by
  induction n with
  | zero =>
    constructor
    · intro h
      exact absurd h (by decide)
    · show rngSeed < U64
      decide
  | succ n ih =>
    rw [Function.iterate_succ_apply']
    constructor
    · intro h
      have h0 : xorshift64 (xorshift64^[n] rngSeed) = xorshift64 0 := by
        rw [h, xorshift64_zero]
      exact ih.1 (xorshift64_inj ih.2 (by norm_num [U64]) h0)
    · exact xorshift64_lt ih.2

/-- C10: the xorshift64 step is injective on 64-bit states and sends zero
only to zero, hence from the nonzero built-in seed the state is never zero
after any number of calls and no draw ever returns zero. -/
theorem c10_xorshift64_never_zero :
    (∀ x y, x < U64 → y < U64 → xorshift64 x = xorshift64 y → x = y)
    ∧ (∀ x, x < U64 → xorshift64 x = 0 → x = 0)
    ∧ (∀ n, xorshift64^[n] rngSeed ≠ 0)
    ∧ (∀ n, ∀ v ∈ draws rngSeed n, v ≠ 0) := by
  refine ⟨fun x y hx hy h => xorshift64_inj hx hy h, ?_, ?_, ?_⟩
  · intro x hx h
    exact xorshift64_inj hx (by norm_num [U64]) (by rw [h, xorshift64_zero])
  · intro n
    exact (iterate_seed_ne_zero n).1
  · intro n v hv
    rw [draws_eq] at hv
    rcases List.mem_map.1 hv with ⟨i, _, hi⟩
    rw [← hi]
    exact (iterate_seed_ne_zero (i + 1)).1

/-- Witness for c10_xorshift64_never_zero: the injectivity and
zero-fixed-point parts applied at concrete states. -/
theorem c10_xorshift64_never_zero_witness :
    (5 : Nat) = 5 ∧ (0 : Nat) = 0 ∧ xorshift64^[3] rngSeed ≠ 0 :=
  ⟨c10_xorshift64_never_zero.1 5 5 (by decide) (by decide) rfl,
   c10_xorshift64_never_zero.2.1 0 (by decide) xorshift64_zero,
   c10_xorshift64_never_zero.2.2.1 3⟩

lemma digitsVal_of_no_digit {l : List Char} (h : ∀ c ∈ l, c.isDigit = false)
    (acc : Nat) : digitsVal l acc = acc := by
  cases l with
  | nil => rfl
  | cons c cs =>
    rw [digitsVal, h c (List.mem_cons_self c cs)]
    simp

lemma atoi_of_no_digit :
    ∀ (s : List Char), (∀ c ∈ s, c.isDigit = false) → atoi s = 0 := by
  intro s
  induction s with
  | nil => intro _; rfl
  | cons c cs ih =>
    intro h
    have hcs : ∀ a ∈ cs, a.isDigit = false :=
      fun a ha => h a (List.mem_cons_of_mem c ha)
    show atoiCore (c :: cs) = 0
    rw [atoiCore]
    by_cases h1 : isSpaceC c = true
    · rw [if_pos h1]; exact ih hcs
    · rw [if_neg h1]
      by_cases h2 : c = '-'
      · rw [if_pos h2, digitsVal_of_no_digit hcs]; rfl
      · rw [if_neg h2]
        by_cases h3 : c = '+'
        · rw [if_pos h3, digitsVal_of_no_digit hcs]; rfl
        · rw [if_neg h3, digitsVal_of_no_digit h]; rfl

/-- C2 counterexample: on the non-numeric argument x the program uses a
round count of 1000, not the standard default 500000. -/
theorem c2_counterexample :
    roundsOf (some ['x']) = 1000 ∧ roundsOf (some ['x']) ≠ 500000 := by
  constructor
  · rfl
  · intro h
    exact absurd h (by decide)

/-- C2 amended: an absent rounds argument uses the default 500000; a
non-numeric argument parses to 0 via atoi and is clamped up to the minimum
1000 (as is every parsed value below 1000); parsed values of at least 1000
are used as given. -/
theorem c2_rounds_amended :
    roundsOf none = 500000
    ∧ (∀ s : List Char, (∀ c ∈ s, c.isDigit = false) → atoi s = 0)
    ∧ (∀ s : List Char, atoi s < 1000 → roundsOf (some s) = 1000)
    ∧ (∀ s : List Char, 1000 ≤ atoi s → roundsOf (some s) = (atoi s).toNat) := by
  refine ⟨by decide, atoi_of_no_digit, ?_, ?_⟩
  · intro s hs
    simp [roundsOf, parseArg, clampRounds, hs]
  · intro s hs
    simp [roundsOf, parseArg, clampRounds]
    omega

/-- Witness for c2_rounds_amended at the concrete non-numeric argument zz
and the concrete numeric argument 4000. -/
theorem c2_rounds_amended_witness :
    atoi ['z', 'z'] = 0
    ∧ roundsOf (some ['z', 'z']) = 1000
    ∧ roundsOf (some ['4', '0', '0', '0']) = (atoi ['4', '0', '0', '0']).toNat :=
  ⟨c2_rounds_amended.2.1 ['z', 'z'] (by decide),
   c2_rounds_amended.2.2.1 ['z', 'z'] (by decide),
   c2_rounds_amended.2.2.2 ['4', '0', '0', '0'] (by decide)⟩

/-- C7: the driver clamps the requested rounds to max r 1000, derives the
accumulation count as max (rounds / 50) 100 by integer division, reports
rounds + accum_count * 3 operations, and reports 1300 at rounds 1000. -/
theorem c7_driver_ops :
    (∀ r : Int, (clampRounds r : Int) = max r 1000)
    ∧ (∀ n : Nat, accum_count n = max (n / 50) 100)
    ∧ (∀ r : Int, driverOps r = clampRounds r + max (clampRounds r / 50) 100 * 3)
    ∧ driverOps 1000 = 1300 := by
  refine ⟨?_, ?_, ?_, by decide⟩
  · intro r
    rw [clampRounds]
    rcases lt_or_ge r 1000 with h | h
    · rw [if_pos h]
      omega
    · rw [if_neg (by omega)]
      omega
  · intro n
    rw [accum_count]
    rcases lt_or_ge (n / 50) 100 with h | h
    · rw [if_pos h]; omega
    · rw [if_neg (by omega)]; omega
  · intro r
    rw [driverOps, totalOps, accum_count]
    rcases lt_or_ge (clampRounds r / 50) 100 with h | h
    · rw [if_pos h]; omega
    · rw [if_neg (by omega)]; omega

/-- C8: for nonnegative memory readings (the probe returns a parsed VmRSS
value or zero), the ratio is reported if and only if both readings are
nonzero, it then equals post-fragment divided by post-accumulate, and a
zero reading skips the computation entirely. -/
theorem c8_frag_report (a f : Int) (ha : 0 ≤ a) (hf : 0 ≤ f) :
    ((fragReport a f).isSome = true ↔ (a ≠ 0 ∧ f ≠ 0))
    ∧ (∀ q, fragReport a f = some q → q = (f : ℚ) / (a : ℚ))
    ∧ ((a = 0 ∨ f = 0) → fragReport a f = none) := by
  refine ⟨?_, ?_, ?_⟩
  · rw [fragReport]
    by_cases h : 0 < a ∧ 0 < f
    · rw [if_pos h]
      simp only [Option.isSome_some, true_iff]
      omega
    · rw [if_neg h]
      simp only [Option.isSome_none, Bool.false_eq_true, false_iff]
      omega
  · intro q hq
    rw [fragReport] at hq
    by_cases h : 0 < a ∧ 0 < f
    · rw [if_pos h] at hq
      exact (Option.some_inj.1 hq).symm
    · rw [if_neg h] at hq
      exact absurd hq (by simp)
  · intro h
    rw [fragReport, if_neg (by omega)]

/-- Witness for c8_frag_report at readings 2 and 3. -/
theorem c8_frag_report_witness :
    ((fragReport 2 3).isSome = true ↔ ((2 : Int) ≠ 0 ∧ (3 : Int) ≠ 0))
    ∧ (∀ q, fragReport 2 3 = some q → q = ((3 : Int) : ℚ) / ((2 : Int) : ℚ))
    ∧ (((2 : Int) = 0 ∨ (3 : Int) = 0) → fragReport 2 3 = none) :=
  c8_frag_report 2 3 (by decide) (by decide)

lemma rand_range_lb (lo hi s : Nat) : lo ≤ (rand_range lo hi s).1 :=
  Nat.le_add_right _ _

lemma rand_range_ub (lo hi s : Nat) (h : lo < hi) : (rand_range lo hi s).1 < hi := by
  have h1 : (next s).1 % (hi - lo) < hi - lo := Nat.mod_lt _ (by omega)
  show lo + (next s).1 % (hi - lo) < hi
  omega

lemma amalloc_live_subset (ok : Nat → Bool) (a : AllocSt) :
    a.live ⊆ (amalloc ok a).2.live := by
  rw [amalloc]
  by_cases h : ok a.ctr = true
  · rw [if_pos h]
    exact Finset.subset_insert _ _
  · rw [if_neg h]

lemma accumLoop_spec (ok : Nat → Bool) :
    ∀ (n : Nat) (ps : List (Option Cell)) (s : Nat) (a : AllocSt),
      (accumLoop ok n ps s a).1.length = ps.length + n
      ∧ a.live ⊆ (accumLoop ok n ps s a).2.2.live
      ∧ ∀ oc ∈ (accumLoop ok n ps s a).1, oc ∈ ps ∨ oc = none ∨
          ∃ c, oc = some c ∧ 4096 ≤ c.data.length ∧ c.data.length < 65536
            ∧ (∀ b ∈ c.data, b = 0xAB)
            ∧ c.h ∈ (accumLoop ok n ps s a).2.2.live := by
  intro n
  induction n with
  | zero =>
    intro ps s a
    exact ⟨rfl, Finset.Subset.refl _, fun oc hoc => Or.inl hoc⟩
  | succ n ih =>
    intro ps s a
    have heq : accumLoop ok (n + 1) ps s a
        = accumLoop ok n
            (ps ++ [(amalloc ok a).1.map fun h =>
              Cell.mk h (List.replicate (rand_range 4096 65536 s).1 0xAB)])
            (rand_range 4096 65536 s).2
            (amalloc ok a).2 := rfl
    obtain ⟨ihlen, ihsub, ihmem⟩ :=
      ih (ps ++ [(amalloc ok a).1.map fun h =>
            Cell.mk h (List.replicate (rand_range 4096 65536 s).1 0xAB)])
         ((rand_range 4096 65536 s).2) ((amalloc ok a).2)
    rw [heq]
    refine ⟨by rw [ihlen]; simp; omega,
      Finset.Subset.trans (amalloc_live_subset ok a) ihsub, ?_⟩
    intro oc hoc
    rcases ihmem oc hoc with hin | hrest
    · rcases List.mem_append.1 hin with hin2 | hin2
      · exact Or.inl hin2
      · have hoc2 : oc = (amalloc ok a).1.map fun h =>
            Cell.mk h (List.replicate (rand_range 4096 65536 s).1 0xAB) := by
          simpa using hin2
        by_cases hok : ok a.ctr = true
        · refine Or.inr (Or.inr ?_)
          refine ⟨Cell.mk a.ctr (List.replicate (rand_range 4096 65536 s).1 0xAB),
            ?_, ?_, ?_, ?_, ?_⟩
          · rw [hoc2, amalloc, if_pos hok]
            simp
          · simp [rand_range_lb 4096 65536 s]
          · simp [rand_range_ub 4096 65536 s (by omega)]
          · intro b hb
            exact List.eq_of_mem_replicate hb
          · refine ihsub ?_
            show a.ctr ∈ (amalloc ok a).2.live
            rw [amalloc, if_pos hok]
            exact Finset.mem_insert_self _ _
        · refine Or.inr (Or.inl ?_)
          rw [hoc2, amalloc, if_neg hok]
          simp
    · exact Or.inr hrest

/-- C5: when the handle-list allocation itself succeeds, the accumulate
phase returns a list of exactly count entries, reports out_count equal to
count, and each entry is either null (its malloc failed) or a live buffer
whose size lies in [4096, 65536) and whose every byte is the sentinel
0xAB. -/
theorem c5_phase_accumulate (ok : Nat → Bool) (count s : Nat) (a : AllocSt)
    (hok : ok a.ctr = true) :
    ∃ ps, (phase_accumulate ok count s a).1 = some ps
      ∧ ps.length = count
      ∧ (phase_accumulate ok count s a).2.1 = count
      ∧ ∀ oc ∈ ps, oc = none ∨ ∃ c, oc = some c
          ∧ 4096 ≤ c.data.length ∧ c.data.length < 65536
          ∧ (∀ b ∈ c.data, b = 0xAB)
          ∧ c.h ∈ (phase_accumulate ok count s a).2.2.2.live := by
  have hm : amalloc ok a = (some a.ctr, ⟨a.ctr + 1, insert a.ctr a.live⟩) := by
    rw [amalloc, if_pos hok]
  have heq : phase_accumulate ok count s a
      = (some (accumLoop ok count [] s ⟨a.ctr + 1, insert a.ctr a.live⟩).1, count,
         (accumLoop ok count [] s ⟨a.ctr + 1, insert a.ctr a.live⟩).2.1,
         (accumLoop ok count [] s ⟨a.ctr + 1, insert a.ctr a.live⟩).2.2) := by
    rw [phase_accumulate, hm]
  obtain ⟨hlen, _, hmem⟩ :=
    accumLoop_spec ok count [] s ⟨a.ctr + 1, insert a.ctr a.live⟩
  refine ⟨(accumLoop ok count [] s ⟨a.ctr + 1, insert a.ctr a.live⟩).1,
    by rw [heq], by rw [hlen]; simp, by rw [heq], ?_⟩
  intro oc hoc
  rcases hmem oc hoc with hin | hrest
  · exact absurd hin (List.not_mem_nil oc)
  · rw [heq]
    exact hrest

/-- Witness for c5_phase_accumulate with an always-succeeding allocator,
count 2, generator state 1 and the empty initial allocator state. -/
theorem c5_phase_accumulate_witness :
    ∃ ps, (phase_accumulate (fun _ => true) 2 1 ⟨0, ∅⟩).1 = some ps
      ∧ ps.length = 2
      ∧ (phase_accumulate (fun _ => true) 2 1 ⟨0, ∅⟩).2.1 = 2
      ∧ ∀ oc ∈ ps, oc = none ∨ ∃ c, oc = some c
          ∧ 4096 ≤ c.data.length ∧ c.data.length < 65536
          ∧ (∀ b ∈ c.data, b = 0xAB)
          ∧ c.h ∈ (phase_accumulate (fun _ => true) 2 1 ⟨0, ∅⟩).2.2.2.live :=
  c5_phase_accumulate (fun _ => true) 2 1 ⟨0, ∅⟩ rfl

/-- C1 is contradicted by the code: line 93 stores the result of the
handle-list malloc without a null check and line 98 writes through it, so
a failed handle-list allocation crashes the accumulate phase instead of
leaving entries null and continuing.  This theorem evaluates the model at
the failing input: an allocator that refuses the handle-list request makes
the phase abort (result none) rather than complete. -/
theorem c1_accumulate_crash :
    (phase_accumulate (fun _ => false) 100 rngSeed ⟨0, ∅⟩).1 = none := rfl

lemma getD_set_same {α : Type} : ∀ (l : List α) (i : Nat) (d : α),
    (l.set i d).getD i d = d := by
  intro l
  induction l with
  | nil => intro i d; rfl
  | cons x xs ih =>
    intro i d
    cases i with
    | zero => rfl
    | succ n => exact ih n d

lemma getD_set_ne {α : Type} : ∀ (l : List α) (i j : Nat) (v d : α), i ≠ j →
    (l.set i v).getD j d = l.getD j d := by
  intro l
  induction l with
  | nil => intro i j v d _; rfl
  | cons x xs ih =>
    intro i j v d hij
    cases i with
    | zero =>
      cases j with
      | zero => exact absurd rfl hij
      | succ m => rfl
    | succ n =>
      cases j with
      | zero => rfl
      | succ m => exact ih n m v d (by omega)

lemma getD_set_self {α : Type} : ∀ (l : List α) (i : Nat) (v d : α),
    i < l.length → (l.set i v).getD i d = v := by
  intro l
  induction l with
  | nil => intro i v d h; exact absurd h (by simp)
  | cons x xs ih =>
    intro i v d h
    cases i with
    | zero => rfl
    | succ n => exact ih n v d (by simpa using h)

lemma getD_of_le {α : Type} : ∀ (l : List α) (i : Nat) (d : α),
    l.length ≤ i → l.getD i d = d := by
  intro l
  induction l with
  | nil => intro i d _; rfl
  | cons x xs ih =>
    intro i d h
    cases i with
    | zero => exact absurd h (by simp)
    | succ n => exact ih n d (by simpa using h)

lemma getD_mem {α : Type} : ∀ (l : List α) (i : Nat) (d : α),
    l.getD i d ∈ l ∨ l.getD i d = d := by
  intro l
  induction l with
  | nil => intro i d; exact Or.inr rfl
  | cons x xs ih =>
    intro i d
    cases i with
    | zero => exact Or.inl (List.mem_cons_self x xs)
    | succ n =>
      rcases ih n d with h | h
      · exact Or.inl (List.mem_cons_of_mem x h)
      · exact Or.inr h

lemma mem_oddIdx {i count : Nat} :
    i ∈ oddIdx count ↔ i < count ∧ i % 2 = 1 := by
  simp [oddIdx, List.mem_filter, List.mem_range]

lemma oddIdx_nodup (count : Nat) : (oddIdx count).Nodup :=
  (List.nodup_range count).filter _

lemma amalloc_ctr (ok : Nat → Bool) (a : AllocSt) :
    (amalloc ok a).2.ctr = a.ctr + 1 := by
  rw [amalloc]
  split_ifs <;> rfl

lemma amalloc_live_mem {ok : Nat → Bool} {a : AllocSt} {t : Nat}
    (h : t ∈ (amalloc ok a).2.live) : t ∈ a.live ∨ t = a.ctr := by
  rw [amalloc] at h
  by_cases hok : ok a.ctr = true
  · rw [if_pos hok] at h
    rcases Finset.mem_insert.1 h with h1 | h1
    · exact Or.inr h1
    · exact Or.inl h1
  · rw [if_neg hok] at h
    exact Or.inl h

lemma fragFree_length : ∀ (l : List Nat) (p : List (Option Cell)) (a : AllocSt),
    (fragFree l p a).1.length = p.length := by
  intro l
  induction l with
  | nil => intro p a; rfl
  | cons j l ih =>
    intro p a
    rw [fragFree]
    cases hp : p.getD j none with
    | some c => rw [ih]; simp
    | none => rw [ih]; simp

lemma fragFree_getD_notMem :
    ∀ (l : List Nat) (p : List (Option Cell)) (a : AllocSt) (j : Nat), j ∉ l →
      (fragFree l p a).1.getD j none = p.getD j none := by
  intro l
  induction l with
  | nil => intro p a j _; rfl
  | cons j0 l ih =>
    intro p a j hj
    have hj0 : j0 ≠ j := fun h => hj (h ▸ List.mem_cons_self j0 l)
    have hjl : j ∉ l := fun h => hj (List.mem_cons_of_mem j0 h)
    rw [fragFree]
    cases hp : p.getD j0 none with
    | some c => rw [ih _ _ _ hjl, getD_set_ne _ _ _ _ _ hj0]
    | none => rw [ih _ _ _ hjl, getD_set_ne _ _ _ _ _ hj0]

lemma fragFree_getD_mem :
    ∀ (l : List Nat) (p : List (Option Cell)) (a : AllocSt) (j : Nat), j ∈ l →
      (fragFree l p a).1.getD j none = none := by
  intro l
  induction l with
  | nil => intro p a j hj; exact absurd hj (List.not_mem_nil j)
  | cons j0 l ih =>
    intro p a j hj
    by_cases hjl : j ∈ l
    · rw [fragFree]
      cases hp : p.getD j0 none with
      | some c => exact ih _ _ _ hjl
      | none => exact ih _ _ _ hjl
    · have hj0 : j = j0 := by
        rcases List.mem_cons.1 hj with h | h
        · exact h
        · exact absurd h hjl
      subst hj0
      rw [fragFree]
      cases hp : p.getD j none with
      | some c => rw [fragFree_getD_notMem _ _ _ _ hjl, getD_set_same]
      | none => rw [fragFree_getD_notMem _ _ _ _ hjl, getD_set_same]

lemma fragFree_live_subset :
    ∀ (l : List Nat) (p : List (Option Cell)) (a : AllocSt),
      (fragFree l p a).2.live ⊆ a.live := by
  intro l
  induction l with
  | nil => intro p a; exact Finset.Subset.refl _
  | cons j0 l ih =>
    intro p a
    rw [fragFree]
    cases hp : p.getD j0 none with
    | some c =>
      refine Finset.Subset.trans (ih _ _) ?_
      exact Finset.erase_subset _ _
    | none => exact ih _ _

lemma fragFree_ctr : ∀ (l : List Nat) (p : List (Option Cell)) (a : AllocSt),
    (fragFree l p a).2.ctr = a.ctr := by
  intro l
  induction l with
  | nil => intro p a; rfl
  | cons j0 l ih =>
    intro p a
    rw [fragFree]
    cases hp : p.getD j0 none with
    | some c => rw [ih]; rfl
    | none => rw [ih]

lemma fragFree_freed :
    ∀ (l : List Nat) (p : List (Option Cell)) (a : AllocSt) (j : Nat)
      (c : Cell), l.Nodup → j ∈ l → p.getD j none = some c →
      c.h ∉ (fragFree l p a).2.live := by
  intro l
  induction l with
  | nil => intro p a j c _ hj _; exact absurd hj (List.not_mem_nil j)
  | cons j0 l ih =>
    intro p a j c hnd hj hp
    have hnd0 : j0 ∉ l := (List.nodup_cons.1 hnd).1
    have hndl : l.Nodup := (List.nodup_cons.1 hnd).2
    by_cases hjl : j ∈ l
    · have hj0 : j ≠ j0 := fun h => hnd0 (h ▸ hjl)
      rw [fragFree]
      cases hp0 : p.getD j0 none with
      | some c0 =>
        exact ih _ _ _ _ hndl hjl (by rw [getD_set_ne _ _ _ _ _ (Ne.symm hj0), hp])
      | none =>
        exact ih _ _ _ _ hndl hjl (by rw [getD_set_ne _ _ _ _ _ (Ne.symm hj0), hp])
    · have hj0 : j = j0 := by
        rcases List.mem_cons.1 hj with h | h
        · exact h
        · exact absurd h hjl
      subst hj0
      rw [fragFree, hp]
      intro hmem
      have := fragFree_live_subset l (p.set j none) (afree c.h a) hmem
      exact absurd this (by simp [afree])

lemma fragAlloc_length (ok : Nat → Bool) :
    ∀ (l : List Nat) (p : List (Option Cell)) (s : Nat) (a : AllocSt),
      (fragAlloc ok l p s a).1.length = p.length := by
  intro l
  induction l with
  | nil => intro p s a; rfl
  | cons j0 l ih =>
    intro p s a
    rw [fragAlloc, ih]
    simp

lemma fragAlloc_getD_notMem (ok : Nat → Bool) :
    ∀ (l : List Nat) (p : List (Option Cell)) (s : Nat) (a : AllocSt) (j : Nat),
      j ∉ l → (fragAlloc ok l p s a).1.getD j none = p.getD j none := by
  intro l
  induction l with
  | nil => intro p s a j _; rfl
  | cons j0 l ih =>
    intro p s a j hj
    have hj0 : j0 ≠ j := fun h => hj (h ▸ List.mem_cons_self j0 l)
    have hjl : j ∉ l := fun h => hj (List.mem_cons_of_mem j0 h)
    rw [fragAlloc, ih _ _ _ _ hjl, getD_set_ne _ _ _ _ _ hj0]

lemma fragAlloc_getD_mem (ok : Nat → Bool) :
    ∀ (l : List Nat) (p : List (Option Cell)) (s : Nat) (a : AllocSt) (j : Nat),
      l.Nodup → j ∈ l →
      (fragAlloc ok l p s a).1.getD j none = none
      ∨ ∃ c, (fragAlloc ok l p s a).1.getD j none = some c
          ∧ 128 ≤ c.data.length ∧ c.data.length < 8192
          ∧ ∀ b ∈ c.data, b = 0xCD := by
  intro l
  induction l with
  | nil => intro p s a j _ hj; exact absurd hj (List.not_mem_nil j)
  | cons j0 l ih =>
    intro p s a j hnd hj
    have hnd0 : j0 ∉ l := (List.nodup_cons.1 hnd).1
    have hndl : l.Nodup := (List.nodup_cons.1 hnd).2
    by_cases hjl : j ∈ l
    · rw [fragAlloc]
      exact ih _ _ _ _ hndl hjl
    · have hj0 : j = j0 := by
        rcases List.mem_cons.1 hj with h | h
        · exact h
        · exact absurd h hjl
      subst hj0
      rw [fragAlloc, fragAlloc_getD_notMem ok _ _ _ _ _ hjl]
      by_cases hlen : j < p.length
      · rw [getD_set_self _ _ _ _ hlen]
        by_cases hok : ok a.ctr = true
        · refine Or.inr ⟨Cell.mk a.ctr (List.replicate (rand_range 128 8192 s).1 0xCD),
            ?_, ?_, ?_, ?_⟩
          · rw [amalloc, if_pos hok]
            simp
          · simp [rand_range_lb 128 8192 s]
          · simp [rand_range_ub 128 8192 s (by omega)]
          · intro b hb
            exact List.eq_of_mem_replicate hb
        · refine Or.inl ?_
          rw [amalloc, if_neg hok]
          simp
      · refine Or.inl (getD_of_le _ _ _ ?_)
        simp
        omega

lemma fragAlloc_live (ok : Nat → Bool) :
    ∀ (l : List Nat) (p : List (Option Cell)) (s : Nat) (a : AllocSt) (t : Nat),
      t ∈ (fragAlloc ok l p s a).2.2.live → t ∈ a.live ∨ a.ctr ≤ t := by
  intro l
  induction l with
  | nil => intro p s a t ht; exact Or.inl ht
  | cons j0 l ih =>
    intro p s a t ht
    rw [fragAlloc] at ht
    rcases ih _ _ _ _ ht with h | h
    · rcases amalloc_live_mem h with h1 | h1
      · exact Or.inl h1
      · exact Or.inr (le_of_eq h1.symm)
    · rw [amalloc_ctr] at h
      exact Or.inr (by omega)

/-- C6: after phase_fragment every even-indexed entry is exactly the entry
the accumulate phase produced (same handle, size and contents), and for
every odd index the original buffer is no longer live and the slot holds
either null (failed reallocation) or a buffer whose size lies in
[128, 8192) and whose every byte is the sentinel 0xCD.  The hypothesis
states that every handle in the input list was issued before the current
allocation counter, which holds for every list the accumulate phase
produces. -/
theorem c6_phase_fragment (ok : Nat → Bool) (ptrs : List (Option Cell))
    (count s : Nat) (a : AllocSt)
    (hh : ∀ oc ∈ ptrs, ∀ c : Cell, oc = some c → c.h < a.ctr) :
    (phase_fragment ok ptrs count s a).1.length = ptrs.length
    ∧ (∀ i, i < count → i % 2 = 0 →
        (phase_fragment ok ptrs count s a).1.getD i none = ptrs.getD i none)
    ∧ (∀ i, i < count → i % 2 = 1 →
        (∀ c : Cell, ptrs.getD i none = some c →
          c.h ∉ (phase_fragment ok ptrs count s a).2.2.live)
        ∧ ((phase_fragment ok ptrs count s a).1.getD i none = none
           ∨ ∃ c, (phase_fragment ok ptrs count s a).1.getD i none = some c
               ∧ 128 ≤ c.data.length ∧ c.data.length < 8192
               ∧ ∀ b ∈ c.data, b = 0xCD)) := by
  refine ⟨?_, ?_, ?_⟩
  · rw [phase_fragment]
    rw [fragAlloc_length, fragFree_length]
  · intro i hi hpar
    have hnot : i ∉ oddIdx count := by
      rw [mem_oddIdx]
      omega
    rw [phase_fragment, fragAlloc_getD_notMem ok _ _ _ _ _ hnot,
      fragFree_getD_notMem _ _ _ _ hnot]
  · intro i hi hpar
    have hmem : i ∈ oddIdx count := mem_oddIdx.2 ⟨hi, hpar⟩
    constructor
    · intro c hc
      have hlt : c.h < a.ctr := by
        rcases getD_mem ptrs i none with h | h
        · exact hh _ h c (by rw [← hc])
        · rw [h] at hc
          exact absurd hc (by simp)
      intro hlive
      rw [phase_fragment] at hlive
      rcases fragAlloc_live ok _ _ _ _ _ hlive with h1 | h1
      · exact fragFree_freed (oddIdx count) ptrs a i c
          (oddIdx_nodup count) hmem hc h1
      · rw [fragFree_ctr] at h1
        omega
    · rw [phase_fragment]
      exact fragAlloc_getD_mem ok (oddIdx count) _ s _ i (oddIdx_nodup count) hmem

/-- Witness for c6_phase_fragment on a two-entry list of null entries with
an always-succeeding allocator. -/
theorem c6_phase_fragment_witness :
    (phase_fragment (fun _ => true) [none, none] 2 1 ⟨0, ∅⟩).1.length
        = ([none, none] : List (Option Cell)).length
    ∧ (∀ i, i < 2 → i % 2 = 0 →
        (phase_fragment (fun _ => true) [none, none] 2 1 ⟨0, ∅⟩).1.getD i none
          = ([none, none] : List (Option Cell)).getD i none)
    ∧ (∀ i, i < 2 → i % 2 = 1 →
        (∀ c : Cell, ([none, none] : List (Option Cell)).getD i none = some c →
          c.h ∉ (phase_fragment (fun _ => true) [none, none] 2 1 ⟨0, ∅⟩).2.2.live)
        ∧ ((phase_fragment (fun _ => true) [none, none] 2 1 ⟨0, ∅⟩).1.getD i none = none
           ∨ ∃ c, (phase_fragment (fun _ => true) [none, none] 2 1 ⟨0, ∅⟩).1.getD i none
                 = some c
               ∧ 128 ≤ c.data.length ∧ c.data.length < 8192
               ∧ ∀ b ∈ c.data, b = 0xCD)) :=
  c6_phase_fragment (fun _ => true) [none, none] 2 1 ⟨0, ∅⟩
    (by
      intro oc hoc c hc
      have hn : oc = none := by
        rcases List.mem_cons.1 hoc with h | h
        · exact h
        · rcases List.mem_cons.1 h with h2 | h2
          · exact h2
          · exact absurd h2 (List.not_mem_nil oc)
      rw [hn] at hc
      exact Option.noConfusion hc)

lemma img_card_le (p : Fin POOL → Option Cell) : (img p).card ≤ POOL := by
  have hsub : img p ⊆ Finset.image (fun j => ((p j).map Cell.h).getD 0) Finset.univ := by
    intro t ht
    obtain ⟨j, c, hj, hc⟩ := mem_img.1 ht
    refine Finset.mem_image.2 ⟨j, Finset.mem_univ j, ?_⟩
    rw [hj, ← hc]
    rfl
  refine le_trans (Finset.card_le_card hsub) (le_trans Finset.card_image_le ?_)
  rw [Finset.card_univ, Fintype.card_fin]

lemma mem_img_update_none {p : Fin POOL → Option Cell} {idx : Fin POOL} {t : Nat} :
    t ∈ img (Function.update p idx none)
      ↔ ∃ j, j ≠ idx ∧ ∃ c, p j = some c ∧ c.h = t := by
  rw [mem_img]
  constructor
  · rintro ⟨j, c, hj, hc⟩
    by_cases h : j = idx
    · subst h
      rw [Function.update_same] at hj
      exact absurd hj (by simp)
    · rw [Function.update_noteq h] at hj
      exact ⟨j, h, c, hj, hc⟩
  · rintro ⟨j, hne, c, hj, hc⟩
    refine ⟨j, c, ?_, hc⟩
    rw [Function.update_noteq hne]
    exact hj

lemma mem_img_update_some {p : Fin POOL → Option Cell} {idx : Fin POOL}
    (hidx : p idx = none) {cN : Cell} {t : Nat} :
    t ∈ img (Function.update p idx (some cN)) ↔ t = cN.h ∨ t ∈ img p := by
  rw [mem_img]
  constructor
  · rintro ⟨j, c, hj, hc⟩
    by_cases h : j = idx
    · subst h
      rw [Function.update_same] at hj
      refine Or.inl ?_
      injection hj with h2
      rw [← hc, h2]
    · rw [Function.update_noteq h] at hj
      exact Or.inr (mem_img.2 ⟨j, c, hj, hc⟩)
  · rintro (h | h)
    · exact ⟨idx, cN, Function.update_same idx (some cN) p, h.symm⟩
    · obtain ⟨j, c, hj, hc⟩ := mem_img.1 h
      have hne : j ≠ idx := by
        intro he
        rw [he, hidx] at hj
        exact Option.noConfusion hj
      refine ⟨j, c, ?_, hc⟩
      rw [Function.update_noteq hne]
      exact hj

lemma churnFree_apply (st : ChurnSt) (idx : Fin POOL) :
    (churnFree st idx).1 idx = none := by
  rw [churnFree]
  cases hp : st.pool idx with
  | some c => exact Function.update_same idx none st.pool
  | none => exact hp

lemma churnFree_inv {a0 : AllocSt} (hWF : a0.WF) {st : ChurnSt}
    (inv : ChurnInv a0 st) (idx : Fin POOL) :
    (churnFree st idx).2.live = a0.live ∪ img (churnFree st idx).1
    ∧ (∀ h ∈ img (churnFree st idx).1, a0.ctr ≤ h ∧ h < (churnFree st idx).2.ctr)
    ∧ (∀ (j k : Fin POOL) (c c2 : Cell), (churnFree st idx).1 j = some c →
        (churnFree st idx).1 k = some c2 → c.h = c2.h → j = k)
    ∧ (churnFree st idx).2.ctr = st.alloc.ctr := by
  obtain ⟨h1, h2, h3, h4⟩ := inv
  cases hp : st.pool idx with
  | none =>
    have he : churnFree st idx = (st.pool, st.alloc) := by
      rw [churnFree, hp]
    rw [he]
    exact ⟨h1, h2, h3, rfl⟩
  | some c =>
    have he : churnFree st idx
        = (Function.update st.pool idx none, afree c.h st.alloc) := by
      rw [churnFree, hp]
    have hch : c.h ∈ img st.pool := mem_img.2 ⟨idx, c, hp, rfl⟩
    rw [he]
    dsimp only
    refine ⟨?_, ?_, ?_, rfl⟩
    · ext t
      show t ∈ (st.alloc.live.erase c.h) ↔ _
      rw [Finset.mem_erase, h1, Finset.mem_union, Finset.mem_union]
      constructor
      · rintro ⟨hne, hin | hin⟩
        · exact Or.inl hin
        · obtain ⟨j, c2, hj, hc2⟩ := mem_img.1 hin
          have hne2 : j ≠ idx := by
            intro heq
            rw [heq, hp] at hj
            injection hj with h5
            rw [← h5] at hc2
            exact hne hc2.symm
          exact Or.inr (mem_img_update_none.2 ⟨j, hne2, c2, hj, hc2⟩)
      · rintro (hin | hin)
        · refine ⟨?_, Or.inl hin⟩
          have := hWF t hin
          have := (h2 c.h hch).1
          omega
        · obtain ⟨j, hne, c2, hj, hc2⟩ := mem_img_update_none.1 hin
          refine ⟨?_, Or.inr (mem_img.2 ⟨j, c2, hj, hc2⟩)⟩
          intro heq
          exact hne (h3 j idx c2 c hj hp (by rw [hc2, heq]))
    · intro h hin
      obtain ⟨j, hne, c2, hj, hc2⟩ := mem_img_update_none.1 hin
      exact h2 h (mem_img.2 ⟨j, c2, hj, hc2⟩)
    · intro j k c1 c2 hj hk hcc
      have hjne : j ≠ idx := by
        intro he2
        rw [he2, Function.update_same] at hj
        exact Option.noConfusion hj
      have hkne : k ≠ idx := by
        intro he2
        rw [he2, Function.update_same] at hk
        exact Option.noConfusion hk
      rw [Function.update_noteq hjne] at hj
      rw [Function.update_noteq hkne] at hk
      exact h3 j k c1 c2 hj hk hcc

lemma churnStep_inv {a0 : AllocSt} (hWF : a0.WF) {st : ChurnSt}
    (inv : ChurnInv a0 st) (ok : Nat → Bool) (i : Nat) :
    ChurnInv a0 (churnStep ok i st) := by
  obtain ⟨g1, g2, g3, g4⟩ := churnFree_inv hWF inv (churnIdx st)
  have hidx : (churnFree st (churnIdx st)).1 (churnIdx st) = none :=
    churnFree_apply st (churnIdx st)
  by_cases hok : ok (churnFree st (churnIdx st)).2.ctr = true
  · have hm : amalloc ok (churnFree st (churnIdx st)).2
        = (some (churnFree st (churnIdx st)).2.ctr,
           ⟨(churnFree st (churnIdx st)).2.ctr + 1,
            insert (churnFree st (churnIdx st)).2.ctr
              (churnFree st (churnIdx st)).2.live⟩) := by
      rw [amalloc, if_pos hok]
    have hpool : (churnStep ok i st).pool
        = Function.update (churnFree st (churnIdx st)).1 (churnIdx st)
            (some (Cell.mk (churnFree st (churnIdx st)).2.ctr
              (List.replicate (rand_range 64 4096 (next st.rng).1).1 (i % 256)))) := by
      show Function.update (churnFree st (churnIdx st)).1 (churnIdx st) _ = _
      rw [hm]
      exact rfl
    have halloc : (churnStep ok i st).alloc
        = ⟨(churnFree st (churnIdx st)).2.ctr + 1,
           insert (churnFree st (churnIdx st)).2.ctr
             (churnFree st (churnIdx st)).2.live⟩ := by
      show (amalloc ok (churnFree st (churnIdx st)).2).2 = _
      rw [hm]
    refine ⟨?_, ?_, ?_, ?_⟩
    · rw [hpool, halloc]
      ext t
      rw [Finset.mem_union, mem_img_update_some hidx]
      show t ∈ insert _ _ ↔ _
      rw [Finset.mem_insert, g1, Finset.mem_union]
      constructor
      · rintro (h | h | h)
        · exact Or.inr (Or.inl h)
        · exact Or.inl h
        · exact Or.inr (Or.inr h)
      · rintro (h | h | h)
        · exact Or.inr (Or.inl h)
        · exact Or.inl h
        · exact Or.inr (Or.inr h)
    · intro h hin
      rw [hpool] at hin
      rw [halloc]
      rcases (mem_img_update_some hidx).1 hin with h5 | h5
      · have h6 : h = (churnFree st (churnIdx st)).2.ctr := h5
        have h7 := inv.ctrLe
        have h8 := g4
        show a0.ctr ≤ h ∧ h < (churnFree st (churnIdx st)).2.ctr + 1
        omega
      · have h6 := g2 h h5
        show a0.ctr ≤ h ∧ h < (churnFree st (churnIdx st)).2.ctr + 1
        omega
    · intro j k c1 c2 hj hk hcc
      rw [hpool] at hj hk
      by_cases hje : j = churnIdx st
      · by_cases hke : k = churnIdx st
        · rw [hje, hke]
        · exfalso
          rw [hje, Function.update_same] at hj
          rw [Function.update_noteq hke] at hk
          injection hj with h5
          have hb := (g2 c2.h (mem_img.2 ⟨k, c2, hk, rfl⟩)).2
          rw [← h5] at hcc
          have h6 : (churnFree st (churnIdx st)).2.ctr = c2.h := hcc
          omega
      · by_cases hke : k = churnIdx st
        · exfalso
          rw [hke, Function.update_same] at hk
          rw [Function.update_noteq hje] at hj
          injection hk with h5
          have hb := (g2 c1.h (mem_img.2 ⟨j, c1, hj, rfl⟩)).2
          rw [← h5] at hcc
          have h6 : c1.h = (churnFree st (churnIdx st)).2.ctr := hcc
          omega
        · rw [Function.update_noteq hje] at hj
          rw [Function.update_noteq hke] at hk
          exact g3 j k c1 c2 hj hk hcc
    · have h7 := inv.ctrLe
      have h8 := g4
      show a0.ctr ≤ (churnStep ok i st).alloc.ctr
      rw [halloc]
      show a0.ctr ≤ (churnFree st (churnIdx st)).2.ctr + 1
      omega
  · have hm : amalloc ok (churnFree st (churnIdx st)).2
        = (none, ⟨(churnFree st (churnIdx st)).2.ctr + 1,
                  (churnFree st (churnIdx st)).2.live⟩) := by
      rw [amalloc, if_neg hok]
    have hpool : (churnStep ok i st).pool = (churnFree st (churnIdx st)).1 := by
      show Function.update (churnFree st (churnIdx st)).1 (churnIdx st) _ = _
      rw [hm]
      show Function.update (churnFree st (churnIdx st)).1 (churnIdx st) none = _
      rw [← hidx]
      exact Function.update_eq_self (churnIdx st) (churnFree st (churnIdx st)).1
    have halloc : (churnStep ok i st).alloc
        = ⟨(churnFree st (churnIdx st)).2.ctr + 1,
           (churnFree st (churnIdx st)).2.live⟩ := by
      show (amalloc ok (churnFree st (churnIdx st)).2).2 = _
      rw [hm]
    refine ⟨?_, ?_, ?_, ?_⟩
    · rw [hpool, halloc]
      exact g1
    · intro h hin
      rw [hpool] at hin
      have := g2 h hin
      rw [halloc]
      show a0.ctr ≤ h ∧ h < (churnFree st (churnIdx st)).2.ctr + 1
      omega
    · intro j k c1 c2 hj hk hcc
      rw [hpool] at hj hk
      exact g3 j k c1 c2 hj hk hcc
    · have h7 := inv.ctrLe
      have h8 := g4
      rw [halloc]
      show a0.ctr ≤ (churnFree st (churnIdx st)).2.ctr + 1
      omega

lemma churnIter_inv {a0 : AllocSt} (hWF : a0.WF) (ok : Nat → Bool) (s : Nat) :
    ∀ n, ChurnInv a0 (churnIter ok s a0 n) := by
  intro n
  induction n with
  | zero =>
    refine ⟨?_, ?_, ?_, le_refl _⟩
    · show a0.live = a0.live ∪ img (fun _ => none)
      have : img (fun _ : Fin POOL => none) = (∅ : Finset Nat) := by
        ext t
        rw [mem_img]
        simp
      rw [this, Finset.union_empty]
    · intro h hin
      rw [mem_img] at hin
      obtain ⟨j, c, hj, _⟩ := hin
      exact Option.noConfusion hj
    · intro j k c1 c2 hj _ _
      exact Option.noConfusion hj
  | succ n ih => exact churnStep_inv hWF ih ok n

lemma churnStep_freed {a0 : AllocSt} {st : ChurnSt} (inv : ChurnInv a0 st)
    (ok : Nat → Bool) (i : Nat) (c : Cell)
    (hc : st.pool (churnIdx st) = some c) :
    c.h ∉ (churnStep ok i st).alloc.live := by
  have he : churnFree st (churnIdx st)
      = (Function.update st.pool (churnIdx st) none, afree c.h st.alloc) := by
    rw [churnFree, hc]
  have hlt : c.h < st.alloc.ctr :=
    (inv.bounds c.h (mem_img.2 ⟨churnIdx st, c, hc, rfl⟩)).2
  have halloc : (churnStep ok i st).alloc
      = (amalloc ok (afree c.h st.alloc)).2 := by
    show (amalloc ok (churnFree st (churnIdx st)).2).2 = _
    rw [he]
  rw [halloc]
  intro hmem
  rcases amalloc_live_mem hmem with h | h
  · exact absurd h (by simp [afree])
  · rw [afree] at h
    simp at h
    omega

lemma foldl_freeSlot_live (p : Fin POOL → Option Cell) :
    ∀ (l : List (Fin POOL)) (a : AllocSt) (t : Nat),
      t ∈ (l.foldl (freeSlot p) a).live
        ↔ t ∈ a.live ∧ ∀ j ∈ l, ∀ c, p j = some c → c.h ≠ t := by
  intro l
  induction l with
  | nil =>
    intro a t
    simp
  | cons j0 l ih =>
    intro a t
    rw [List.foldl_cons]
    cases hp : p j0 with
    | none =>
      have hf : freeSlot p a j0 = a := by
        rw [freeSlot, hp]
      rw [hf, ih]
      constructor
      · rintro ⟨h1, h2⟩
        refine ⟨h1, ?_⟩
        intro j hj c hc
        rcases List.mem_cons.1 hj with rfl | hj2
        · rw [hp] at hc
          exact Option.noConfusion hc
        · exact h2 j hj2 c hc
      · rintro ⟨h1, h2⟩
        exact ⟨h1, fun j hj c hc => h2 j (List.mem_cons_of_mem j0 hj) c hc⟩
    | some c0 =>
      have hf : freeSlot p a j0 = afree c0.h a := by
        rw [freeSlot, hp]
      rw [hf, ih]
      show t ∈ (a.live.erase c0.h) ∧ _ ↔ _
      rw [Finset.mem_erase]
      constructor
      · rintro ⟨⟨hne, h1⟩, h2⟩
        refine ⟨h1, ?_⟩
        intro j hj c hc
        rcases List.mem_cons.1 hj with rfl | hj2
        · rw [hp] at hc
          injection hc with h5
          rw [← h5]
          exact fun he => hne he.symm
        · exact h2 j hj2 c hc
      · rintro ⟨h1, h2⟩
        refine ⟨⟨?_, h1⟩, fun j hj c hc => h2 j (List.mem_cons_of_mem j0 hj) c hc⟩
        intro he
        exact h2 j0 (List.mem_cons_self j0 l) c0 hp he.symm

lemma churnCleanup_live {a0 : AllocSt} (hWF : a0.WF) {st : ChurnSt}
    (inv : ChurnInv a0 st) : (churnCleanup st).live = a0.live := by
  ext t
  rw [churnCleanup, foldl_freeSlot_live]
  constructor
  · rintro ⟨h1, h2⟩
    rw [inv.liveEq, Finset.mem_union] at h1
    rcases h1 with h1 | h1
    · exact h1
    · obtain ⟨j, c, hj, hc⟩ := mem_img.1 h1
      exact absurd hc (h2 j (List.mem_finRange j) c hj)
  · intro h1
    refine ⟨by rw [inv.liveEq]; exact Finset.mem_union_left _ h1, ?_⟩
    intro j _ c hc
    have hge := (inv.bounds c.h (mem_img.2 ⟨j, c, hc, rfl⟩)).1
    have := hWF t h1
    omega

/-- C4: starting from a well-formed allocator state, at every churn
iteration the buffers allocated by the phase and still live number at
most the slot capacity 2048, the occupant of the drawn slot is freed by
the iteration that overwrites it (it is no longer live afterwards), and
when the phase returns the live set is exactly what it was on entry, so
zero buffers allocated by the phase remain live. -/
theorem c4_phase_churn (ok : Nat → Bool) (rounds s : Nat) (a0 : AllocSt)
    (hWF : a0.WF) :
    (∀ i, i ≤ rounds →
      (((churnIter ok s a0 i).alloc.live) \ a0.live).card ≤ POOL)
    ∧ (∀ i, i < rounds → ∀ c : Cell,
        (churnIter ok s a0 i).pool (churnIdx (churnIter ok s a0 i)) = some c →
        c.h ∉ (churnIter ok s a0 (i + 1)).alloc.live)
    ∧ (phase_churn ok rounds s a0).2.live = a0.live := by
  refine ⟨?_, ?_, ?_⟩
  · intro i _
    have inv := churnIter_inv hWF ok s i
    have hsub : ((churnIter ok s a0 i).alloc.live) \ a0.live
        ⊆ img (churnIter ok s a0 i).pool := by
      intro t ht
      rw [Finset.mem_sdiff] at ht
      obtain ⟨ht1, ht2⟩ := ht
      rw [inv.liveEq, Finset.mem_union] at ht1
      rcases ht1 with h | h
      · exact absurd h ht2
      · exact h
    exact le_trans (Finset.card_le_card hsub) (img_card_le _)
  · intro i _ c hc
    have hstep : churnIter ok s a0 (i + 1) = churnStep ok i (churnIter ok s a0 i) :=
      rfl
    rw [hstep]
    exact churnStep_freed (churnIter_inv hWF ok s i) ok i c hc
  · show (churnCleanup (churnIter ok s a0 rounds)).live = a0.live
    exact churnCleanup_live hWF (churnIter_inv hWF ok s rounds)

/-- Witness for c4_phase_churn with one round, an always-succeeding
allocator and the empty initial allocator state. -/
theorem c4_phase_churn_witness :
    ((((churnIter (fun _ => true) rngSeed ⟨0, ∅⟩ 1).alloc.live) \
        (∅ : Finset Nat)).card ≤ POOL)
    ∧ (phase_churn (fun _ => true) 1 rngSeed ⟨0, ∅⟩).2.live = (∅ : Finset Nat) :=
  ⟨(c4_phase_churn (fun _ => true) 1 rngSeed ⟨0, ∅⟩
      (fun h hmem => absurd hmem (Finset.not_mem_empty h))).1 1 (le_refl 1),
   (c4_phase_churn (fun _ => true) 1 rngSeed ⟨0, ∅⟩
      (fun h hmem => absurd hmem (Finset.not_mem_empty h))).2.2⟩

end Bench
